import Mathlib

/-!
Verification of the tree data model and label handling of treetools
(`trees/trees.py`), together with a model of the grammar binarizer
described by the design document.

Conventions of the embedding:
* Python dicts holding node data become the `NodeData` structure; a key
  that is absent (or `None`) is `none`.
* Functions that can raise become `Except String` valued; the error
  string records which Python exception escapes.
* Python `sorted(l, key=k)` (a stable sort) is embedded as the stable
  insertion sort `isortBy k`.
* The constants referenced as `trees.DEFAULT_*` inside `trees.py` are
  the module-level constants defined at the top of that same file.
-/

namespace TT


/-- The label-field separator constants of `trees.py`. -/
def DEFAULT_GF_SEPARATOR : Char := Char.ofNat 45

/-- `DEFAULT_COINDEX_SEPARATOR = u"-"`. -/
def DEFAULT_COINDEX_SEPARATOR : Char := Char.ofNat 45

/-- `DEFAULT_GAPPING_SEPARATOR = u"="`. -/
def DEFAULT_GAPPING_SEPARATOR : Char := Char.ofNat 61

/-- `DEFAULT_HEAD_MARKER = u"'"` (code point 39). -/
def DEFAULT_HEAD_MARKER : Char := Char.ofNat 39

/-- `DEFAULT_EDGE = u"--"`. -/
def DEFAULT_EDGE : String := "--"

/-- The node data dict: the six `FIELDS` keys plus the `num` position key
carried by terminals.  `none` models an absent key (or the value `None`,
with which all `FIELDS` entries are pre-initialized by `make_node_data`). -/
structure NodeData where
  word : Option String := none
  lem : Option String := none
  label : Option String := none
  morph : Option String := none
  edge : Option String := none
  parent_num : Option Nat := none
  num : Option Nat := none
deriving DecidableEq

/-- A tree node (`Tree.__init__`): a unique id, the (copied) data dict and
the list of children.  The parent back-pointer is not needed by any of the
functions verified here and is omitted. -/
inductive Tree where
  | node (id : Nat) (data : NodeData) (children : List Tree) : Tree

mutual

/-- Decidable structural equality for `Tree` (the nested inductive rules
out `deriving`). -/
def Tree.decEq : (a b : Tree) → Decidable (a = b)
  | .node i d cs, .node j e ds =>
    match Nat.decEq i j, (inferInstance : DecidableEq NodeData) d e, Tree.decEqList cs ds with
    | .isTrue h1, .isTrue h2, .isTrue h3 => .isTrue (by rw [h1, h2, h3])
    | .isFalse h1, _, _ => .isFalse (fun h => by cases h; exact h1 rfl)
    | _, .isFalse h2, _ => .isFalse (fun h => by cases h; exact h2 rfl)
    | _, _, .isFalse h3 => .isFalse (fun h => by cases h; exact h3 rfl)

/-- Decidable structural equality for lists of trees. -/
def Tree.decEqList : (a b : List Tree) → Decidable (a = b)
  | [], [] => .isTrue rfl
  | [], _ :: _ => .isFalse (by simp)
  | _ :: _, [] => .isFalse (by simp)
  | a :: as, b :: bs =>
    match Tree.decEq a b, Tree.decEqList as bs with
    | .isTrue h1, .isTrue h2 => .isTrue (by rw [h1, h2])
    | .isFalse h1, _ => .isFalse (fun h => by cases h; exact h1 rfl)
    | _, .isFalse h2 => .isFalse (fun h => by cases h; exact h2 rfl)

end

instance : DecidableEq Tree := Tree.decEq

/-- The `id` attribute of a node. -/
def Tree.id : Tree → Nat
  | .node i _ _ => i

/-- The `data` attribute of a node. -/
def Tree.data : Tree → NodeData
  | .node _ d _ => d

/-- The `children` attribute of a node. -/
def Tree.children : Tree → List Tree
  | .node _ _ cs => cs

/-- Insert `a` in front of the first element whose key is not smaller. -/
def insBy (k : α → Nat) (a : α) : List α → List α
  | [] => [a]
  | b :: l => if k a ≤ k b then a :: b :: l else b :: insBy k a l

/-- Stable insertion sort by a `Nat`-valued key; the embedding of Python
`sorted(l, key=k)`. -/
def isortBy (k : α → Nat) : List α → List α
  | [] => []
  | a :: l => insBy k a (isortBy k l)

def insBy_perm (k : α → Nat) (a : α) (l : List α) :
    List.Perm (insBy k a l) (a :: l) := by
  induction l with
  | nil => simp [insBy]
  | cons b l ih =>
    by_cases hab : k a ≤ k b
    · simp [insBy, hab]
    · simp only [insBy, if_neg hab]
      exact (ih.cons b).trans (List.Perm.swap a b l)

def isortBy_perm (k : α → Nat) (l : List α) :
    List.Perm (isortBy k l) l := by
  induction l with
  | nil => simp [isortBy]
  | cons a l ih =>
    exact (insBy_perm k a (isortBy k l)).trans (ih.cons a)

/-- The sort key used throughout `trees.py`: `x.data['num']`.  Every list
the code sorts contains only terminals that already passed the `num`
presence check in `terminals`, so the `getD 0` default is never
observable. -/
def treeKey (t : Tree) : Nat := (Tree.data t).num.getD 0

mutual

/-- `trees.unordered_terminals`: all leaves of the subtree, in tree order,
with no position check and no sorting. -/
def unordered_terminals : Tree → List Tree
  | .node i d [] => [.node i d []]
  | .node _ _ (c :: cs) => utList (c :: cs)

/-- The `result.extend(...)` loop of `unordered_terminals` over the
children. -/
def utList : List Tree → List Tree
  | [] => []
  | c :: cs => unordered_terminals c ++ utList cs

end

/-- The exception escaping `terminals` at a terminal without a `num`
entry: a `ValueError` carrying the `word`/`label` fields, or a `KeyError`
already while formatting the message when one of those keys is absent. -/
def noNumError (d : NodeData) : String :=
  match d.word, d.label with
  | some w, some l => "ValueError: no number in node data of terminal " ++ w ++ "/" ++ l
  | _, _ => "KeyError: word or label"

mutual

/-- `trees.terminals`: raises when a leaf lacks a `num` entry, otherwise
returns the leaves, re-sorted by `num` at every internal node. -/
def terminals : Tree → Except String (List Tree)
  | .node i d [] =>
    match d.num with
    | none => .error (noNumError d)
    | some _ => .ok [Tree.node i d []]
  | .node _ _ (c :: cs) =>
    match termList (c :: cs) with
    | .error e => .error e
    | .ok l => .ok (isortBy treeKey l)

/-- The `result.extend(...)` loop of `terminals` over the children; the
first child that raises propagates its exception. -/
def termList : List Tree → Except String (List Tree)
  | [] => .ok []
  | c :: cs =>
    match terminals c with
    | .error e => .error e
    | .ok a =>
      match termList cs with
      | .error e => .error e
      | .ok b => .ok (a ++ b)

end

/-- Every leaf of the tree carries a `num` position entry. -/
def allNum (t : Tree) : Prop :=
  ∀ x ∈ unordered_terminals t, (Tree.data x).num.isSome = true

instance (t : Tree) : Decidable (allNum t) := by
  unfold allNum
  infer_instance

/-- The block-building loop of `terminal_blocks`: walk the sorted
terminals, appending to the current block, and start a new block after
position `i` exactly when `terms[i].data['num'] + 1 < terms[i+1].data['num']`. -/
def mkBlocks : Tree → List Tree → List (List Tree)
  | x, [] => [[x]]
  | x, y :: rest =>
    if treeKey x + 1 < treeKey y then [x] :: mkBlocks y rest
    else
      match mkBlocks y rest with
      | [] => [[x]]
      | b :: bs => (x :: b) :: bs

/-- `trees.terminal_blocks`: the continuous blocks covered by the root.
An empty terminal list would hit `terms[-1]` and raise an `IndexError`,
but `terminals` never returns an empty list. -/
def terminal_blocks (t : Tree) : Except String (List (List Tree)) :=
  match terminals t with
  | .error e => .error e
  | .ok [] => .error "IndexError: list index out of range"
  | .ok (x :: rest) => .ok (mkBlocks x rest)

/-- Between two adjacent blocks the position gap is strictly larger
than 1 (stated on the last terminal of the left block and the first of
the right block). -/
def blockGap (b c : List Tree) : Prop :=
  match b.getLast?, c.head? with
  | some u, some v => treeKey u + 1 < treeKey v
  | _, _ => False

/-- The segmentation property claimed for `terminal_blocks`: it succeeds,
its blocks concatenate to `terminals`, inside each block consecutive
positions differ by exactly 1, and adjacent blocks are separated by a gap
greater than 1. -/
def blocksSpecAt (t : Tree) : Prop :=
  ∃ bs ts, terminal_blocks t = .ok bs ∧ terminals t = .ok ts ∧
    bs.flatten = ts ∧
    (∀ b ∈ bs, b.Chain' (fun a c => treeKey c = treeKey a + 1)) ∧
    bs.Chain' blockGap

/-- A terminal with position 0. -/
def leafW0 : Tree := .node 0 { word := some "a", label := some "A", num := some 0 } []

/-- A terminal with position 1. -/
def leafW1 : Tree := .node 1 { word := some "b", label := some "B", num := some 1 } []

/-- A terminal with position 3 (leaving a gap after position 1). -/
def leafW3 : Tree := .node 3 { word := some "c", label := some "C", num := some 3 } []

/-- A discontinuous tree whose children are listed out of position
order. -/
def treeW : Tree := .node 7 { label := some "S" } [leafW1, leafW3, leafW0]

/-- A terminal with position 0 and id 0. -/
def leafD0 : Tree := .node 0 { word := some "x", label := some "X", num := some 0 } []

/-- A distinct terminal that repeats position 0 (the situation the `Tree`
docstring calls an error but no code checks). -/
def leafD1 : Tree := .node 1 { word := some "y", label := some "Y", num := some 0 } []

/-- A tree with two distinct leaves sharing terminal position 0. -/
def treeD : Tree := .node 2 { label := some "S" } [leafD0, leafD1]

/-! ### Claims C4, C8, C3 -/

/-- The sort-key computation of `children`: `terminals(x)[0].data['num']`,
with the exceptions it can raise (a failing `terminals`; the index and
key accesses never fail on a successful `terminals` result). -/
def childKeyE (c : Tree) : Except String Nat :=
  match terminals c with
  | .error e => .error e
  | .ok [] => .error "IndexError: list index out of range"
  | .ok (x :: _) =>
    match (Tree.data x).num with
    | none => .error "KeyError: num"
    | some n => .ok n

/-- Key computation of `sorted(tree.children, key=...)`: Python evaluates
the key of every element (in list order) before sorting, propagating the
first exception. -/
def childKeys : List Tree → Except String (List (Nat × Tree))
  | [] => .ok []
  | c :: cs =>
    match childKeyE c with
    | .error e => .error e
    | .ok n =>
      match childKeys cs with
      | .error e => .error e
      | .ok rest => .ok ((n, c) :: rest)

/-- `trees.children`: the children of the root, stably sorted by the
position of each child's first terminal. -/
def children (t : Tree) : Except String (List Tree) :=
  match childKeys (Tree.children t) with
  | .error e => .error e
  | .ok pairs => .ok ((isortBy Prod.fst pairs).map Prod.snd)

/-- Head key of a list of trees (0 for the empty list, which `terminals`
never returns). -/
def headKey : List Tree → Nat
  | [] => 0
  | x :: _ => treeKey x

/-- The position of the leftmost terminal of `c`, written with total
functions; proved equal to the key `children` computes whenever every
leaf carries a position. -/
def leftKey (c : Tree) : Nat := headKey (isortBy treeKey (unordered_terminals c))

/-- Total counterpart of `children`; agrees with `children` whenever
every leaf carries a position (`children_eq_childrenT`). -/
def childrenT (t : Tree) : List Tree :=
  (isortBy Prod.fst ((Tree.children t).map (fun c => (leftKey c, c)))).map Prod.snd

def childrenT_perm (t : Tree) :
    List.Perm (childrenT t) (Tree.children t) := by
  have h1 := isortBy_perm Prod.fst ((Tree.children t).map (fun c => (leftKey c, c)))
  have h2 := h1.map Prod.snd
  rw [List.map_map] at h2
  have h3 : List.map (Prod.snd ∘ fun c => (leftKey c, c)) (Tree.children t) =
      Tree.children t := by
    rw [show (Prod.snd ∘ fun c : Tree => (leftKey c, c)) = id from rfl, List.map_id]
  rw [h3] at h2
  exact h2

def mem_childrenT {c t : Tree} (hc : c ∈ childrenT t) :
    c ∈ Tree.children t :=
  (childrenT_perm t).subset hc

/-! ### Traversals (`trees.preorder`, `trees.postorder`) -/

def sizeOf_child_lt {c t : Tree} (hc : c ∈ Tree.children t) :
    sizeOf c < sizeOf t := by
  match t with
  | .node i d cs =>
    simp only [Tree.children] at hc
    simp only [Tree.node.sizeOf_spec]
    have := List.sizeOf_lt_of_mem hc
    omega

def childKeys_sub : ∀ {l : List Tree} {pairs : List (Nat × Tree)},
    childKeys l = .ok pairs → ∀ p ∈ pairs, p.2 ∈ l := by
  intro l
  induction l with
  | nil =>
    intro pairs h p hp
    simp only [childKeys] at h
    cases h
    cases hp
  | cons c cs ih =>
    intro pairs h p hp
    cases hk : childKeyE c with
    | error e => simp [childKeys, hk] at h
    | ok n =>
      cases hrest : childKeys cs with
      | error e => simp [childKeys, hk, hrest] at h
      | ok rest =>
        simp only [childKeys, hk, hrest] at h
        cases h
        rcases List.mem_cons.mp hp with rfl | hp
        · simp
        · simp [ih hrest p hp]

def children_ok_sub {t : Tree} {cs : List Tree} (h : children t = .ok cs) :
    ∀ c ∈ cs, c ∈ Tree.children t := by
  intro c hc
  cases hk : childKeys (Tree.children t) with
  | error e => simp [children, hk] at h
  | ok pairs =>
    simp only [children, hk] at h
    cases h
    simp only [List.mem_map] at hc
    rcases hc with ⟨p, hp, rfl⟩
    exact childKeys_sub hk p ((isortBy_perm _ _).subset hp)

/-- Total preorder traversal over the (total) ordered children; agrees
with the generator `preorder` whenever every leaf has a position. -/
def preorderT (t : Tree) : List Tree :=
  t :: ((childrenT t).attach.map (fun x => preorderT x.1)).flatten
termination_by sizeOf t
decreasing_by exact sizeOf_child_lt (mem_childrenT x.2)

/-- Total postorder traversal over the (total) ordered children; agrees
with the generator `postorder` whenever every leaf has a position. -/
def postorderT (t : Tree) : List Tree :=
  ((childrenT t).attach.map (fun x => postorderT x.1)).flatten ++ [t]
termination_by sizeOf t
decreasing_by exact sizeOf_child_lt (mem_childrenT x.2)

/-- `trees.preorder`, collected into a list: yield the tree, then
traverse the ordered children; an exception from `children` anywhere in
the traversal propagates. -/
def preorder (t : Tree) : Except String (List Tree) :=
  match hm : children t with
  | .error e => .error e
  | .ok cs =>
    match cs.attach.mapM (fun x => preorder x.1) with
    | .error e => .error e
    | .ok ls => .ok (t :: ls.flatten)
termination_by sizeOf t
decreasing_by exact sizeOf_child_lt (children_ok_sub hm x.1 x.2)

/-- `trees.postorder`, collected into a list: traverse the ordered
children, then yield the tree. -/
def postorder (t : Tree) : Except String (List Tree) :=
  match hm : children t with
  | .error e => .error e
  | .ok cs =>
    match cs.attach.mapM (fun x => postorder x.1) with
    | .error e => .error e
    | .ok ls => .ok (ls.flatten ++ [t])
termination_by sizeOf t
decreasing_by exact sizeOf_child_lt (children_ok_sub hm x.1 x.2)

mutual

/-- All nodes of a tree, root first, children in tree order. -/
def nodes : Tree → List Tree
  | .node i d cs => Tree.node i d cs :: nodesList cs

/-- Nodes of a list of trees. -/
def nodesList : List Tree → List Tree
  | [] => []
  | c :: cs => nodes c ++ nodesList cs

end

/-- `u` is a subtree of `t` (reflexively, through children). -/
inductive Subtree : Tree → Tree → Prop
  | refl (t : Tree) : Subtree t t
  | step {u c : Tree} {i : Nat} {d : NodeData} {cs : List Tree} :
      c ∈ cs → Subtree u c → Subtree u (Tree.node i d cs)

/-- The traversal properties claimed for `preorder`/`postorder` on a tree
`t`: the generators succeed and equal their total counterparts; each
traversal is a permutation of the node list, with no duplicates; every
subtree's traversal is a contiguous run of the whole traversal, headed
(preorder) or ended (postorder) by the subtree's root; and each node is
followed by its children in `children` order. -/
def traversalSpec (t : Tree) : Prop :=
  preorder t = .ok (preorderT t) ∧ postorder t = .ok (postorderT t) ∧
  List.Perm (preorderT t) (nodes t) ∧ List.Perm (postorderT t) (nodes t) ∧
  (preorderT t).Nodup ∧ (postorderT t).Nodup ∧
  (∀ u, Subtree u t →
    (preorderT u).head? = some u ∧ (postorderT u).getLast? = some u ∧
    (∃ p s, p ++ preorderT u ++ s = preorderT t) ∧
    (∃ p s, p ++ postorderT u ++ s = postorderT t) ∧
    preorderT u = u :: (childrenT u).flatMap preorderT ∧
    postorderT u = (childrenT u).flatMap postorderT ++ [u])

/-- The parsed label parts: the namedtuple
`Label(label, gf, gf_separator, coindex, gapindex, headmarker, is_trace)`
returned by `parse_label`. -/
structure ParsedLabel where
  label : String
  gf : String
  gf_separator : String
  coindex : String
  gapindex : String
  headmarker : String
  is_trace : Bool
deriving DecidableEq

deriving instance DecidableEq for Except

/-- Index of the last occurrence of `c` (the backwards scan of
`parse_label` keeps the first hit of the reversed enumeration). -/
def lastIdxOf (c : Char) : List Char → Option Nat
  | [] => none
  | x :: xs =>
    match lastIdxOf c xs with
    | some i => some (i + 1)
    | none => if x == c then some 0 else none

/-- Index of the first occurrence of `c` (the backwards scan of the
grammatical-function separator overwrites the position at every hit, so
it ends at the first occurrence). -/
def firstIdxOf (c : Char) : List Char → Option Nat
  | [] => none
  | x :: xs => if x == c then some 0 else (firstIdxOf c xs).map (· + 1)

/-- Python's `str.isdigit` restricted to ASCII digits (the digit strings
in these claims): non-empty and all digits.  `"".isdigit()` is `False`. -/
def isDigits (l : List Char) : Bool := !l.isEmpty && l.all Char.isDigit

/-- The grammatical-function and trace part of `parse_label` (the code
after the `len(label) == 0` check): split off the function when the first
separator occurrence lies at index 2 or later (`gf_sep_pos > 1`; in
Python 2, `None > 1` is `False`, so no separator means no split), then
test for a trace label.  `cs2` is the label after index stripping,
`coindex`/`gapindex`/`headmarker` the parts already found. -/
def finishLabel (cs2 coindex gapindex headmarker : List Char) :
    Except String ParsedLabel :=
  if cs2.isEmpty then .error "ValueError: label too short?"
  else
    let gfpos := firstIdxOf DEFAULT_GF_SEPARATOR cs2
    let gfSplit : List Char × List Char :=
      match gfpos with
      | some i => if i > 1 then (cs2.drop (i + 1), cs2.take i) else (DEFAULT_EDGE.data, cs2)
      | none => (DEFAULT_EDGE.data, cs2)
    let gf := gfSplit.1
    let cs3 := gfSplit.2
    let is_trace := cs3.head? == some '*' && cs3.getLast? == some '*'
    .ok ⟨String.mk cs3, String.mk gf, String.mk [DEFAULT_GF_SEPARATOR],
      String.mk coindex, String.mk gapindex, String.mk headmarker, is_trace⟩

/-- `trees.parse_label` called with no keyword parameters (so all
separators keep their defaults; note the code's `if gf_separator in
params` tests the character, not the key name, and is `False` for empty
`params`).  The steps follow the source: strip a trailing head marker
(an empty label raises an `IndexError` at `label[-1]`), find the last
`-` and `=`, strip a digit suffix after the last `-`, then — if a digit
suffix follows the last `=` in the (already truncated) label — read the
unbound name `gapindex_sep_pos` and raise a `NameError`. -/
def parse_label (s : String) : Except String ParsedLabel :=
  let cs0 := s.data
  if cs0.isEmpty then .error "IndexError: string index out of range"
  else
    let hasMarker := cs0.getLast? == some DEFAULT_HEAD_MARKER
    let headmarker : List Char := if hasMarker then [DEFAULT_HEAD_MARKER] else []
    let cs1 := if hasMarker then cs0.dropLast else cs0
    let copos := lastIdxOf DEFAULT_COINDEX_SEPARATOR cs1
    let gappos := lastIdxOf DEFAULT_GAPPING_SEPARATOR cs1
    let coSplit : List Char × List Char :=
      match copos with
      | some i => if isDigits (cs1.drop (i + 1)) then (cs1.drop (i + 1), cs1.take i)
                  else ([], cs1)
      | none => ([], cs1)
    let coindex := coSplit.1
    let cs2 := coSplit.2
    match gappos with
    | some j =>
      if isDigits (cs2.drop (j + 1)) then
        .error "NameError: name gapindex_sep_pos is not defined"
      else finishLabel cs2 coindex [] headmarker
    | none => finishLabel cs2 coindex [] headmarker

/-- `trees.format_label`: its first statement evaluates
`len(gapindex) > 0 and len(coindex) > 0`, but the plain names `gapindex`
and `coindex` are bound nowhere in the function or module (the parsed
parts live in `label.gapindex` / `label.coindex`), so every call raises
a `NameError` before producing anything.  (Were that line repaired, line
253 would still read the nonexistent constant
`trees.DEFAULT_GAPINDEX_SEPARATOR`, and the function appends
`label.gf_separator + label.gf` unconditionally.) -/
def format_label (_l : ParsedLabel) : Except String String :=
  .error "NameError: name gapindex is not defined"

/-- A heap of data dicts: the caller's dict lives at an address and is
handed to `Tree.__init__` by reference; mutating the caller's dict is
`storeSet` at its address. -/
abbrev Store := List NodeData

/-- Dereference a dict address. -/
def storeGet (s : Store) (a : Nat) : NodeData := s.getD a {}

/-- Mutate the dict at address `a` (what the caller does to its dict
after constructing a tree from it). -/
def storeSet (s : Store) (a : Nat) (d : NodeData) : Store := s.set a d

/-- `Tree.__init__(data)` with the global `Tree.newid` counter passed
explicitly: the new tree gets the next id, no children, and
`deepcopy(data)` — the dict's value is copied out of the store, so the
tree keeps no reference into it. -/
def Tree.init (s : Store) (addr : Nat) (counter : Nat) : Tree × Nat :=
  (Tree.node counter (storeGet s addr) [], counter + 1)

/-- Reading the tree's `data` attribute later, under whatever the store
has become: the tree owns its deep copy, so the current store is not
consulted. -/
def Tree.readData (t : Tree) (_s : Store) : NodeData := Tree.data t

/-- Construct one tree per address, threading the id counter. -/
def initMany (s : Store) : List Nat → Nat → List Tree × Nat
  | [], counter => ([], counter)
  | a :: as, counter =>
    let p := Tree.init s a counter
    let q := initMany s as p.2
    (p.1 :: q.1, q.2)

/-- A Python value compared against a tree by `Tree.__eq__`. -/
inductive PyVal where
  | tree (t : Tree)
  | str (s : String)
  | int (n : Int)
  | none
deriving DecidableEq

/-- `Tree.__eq__`: compares ids when the other value is a `Tree`
instance, and returns `False` (without raising) otherwise. -/
def treeEq (t : Tree) : PyVal → Bool
  | .tree o => Tree.id t == Tree.id o
  | _ => false

/-- A linearization: one entry per LHS argument, each an ordered list of
(child position, child argument index) pairs. -/
abbrev Lin := List (List (Nat × Nat))

/-- A grammar function (nonterminal identity): an original function from
extraction, or a synthesized markov nonterminal, which is a reproducible
function of the combined sibling labels (bounded by `h`), the vertical
context (kept when `v > 0`), and the marker distinguishing the topmost
synthesized node of a chain from the interior ones. -/
inductive Func where
  | orig (name : String)
  | synth (hctx : List String) (vctx : String) (top : Bool)
deriving DecidableEq

/-- Label text of a function, used as sibling (horizontal) context. -/
def funcName : Func → String
  | .orig n => n
  | .synth hctx vctx top =>
    "@" ++ String.intercalate "+" hctx ++ "^" ++ vctx ++ (if top then "!" else "")

/-- A rule annotated with its originating vertical context and count. -/
structure GRule where
  lhs : Func
  lin : Lin
  rhs : List Func
  vert : String
  count : Nat
deriving DecidableEq

/-- Markovization bounds: `v` vertical markers, `h` horizontal markers
(natural numbers, so the spec's `v, h ≥ 0` precondition is inherent). -/
structure MarkovOpts where
  v : Nat
  h : Nat

/-- Restrict one linearization argument to the two elements being
combined (working positions 0 and 1).  Maximal runs of combined entries
become argument slots (numbered from `k`) of the synthesized nonterminal;
in the parent argument each run is replaced by the single reference
`(0, slot)` and higher positions shift down by one.  Returns
(synthesized runs, rewritten argument, next slot number). -/
def stepArg (k : Nat) : List (Nat × Nat) →
    List (List (Nat × Nat)) × List (Nat × Nat) × Nat
  | [] => ([], [], k)
  | [e] =>
    if e.1 ≤ 1 then ([[e]], [(0, k)], k + 1)
    else ([], [(e.1 - 1, e.2)], k)
  | e :: f :: rest =>
    if e.1 ≤ 1 then
      if f.1 ≤ 1 then
        match stepArg k (f :: rest) with
        | (run :: runs, args, s) => ((e :: run) :: runs, args, s)
        | ([], args, s) => ([[e]], args, s)
      else
        match stepArg (k + 1) (f :: rest) with
        | (syn, args, s) => ([e] :: syn, (0, k) :: args, s)
    else
      match stepArg k (f :: rest) with
      | (syn, args, s) => (syn, (e.1 - 1, e.2) :: args, s)

/-- Apply `stepArg` to every argument, threading the slot counter:
returns the synthesized nonterminal's linearization (its fan-out is the
number of runs) and the rewritten parent linearization. -/
def stepLin : Lin → Nat → Lin × Lin × Nat
  | [], k => ([], [], k)
  | arg :: args, k =>
    match stepArg k arg with
    | (syn1, arg', k') =>
      match stepLin args k' with
      | (synRest, args', k'') => (syn1 ++ synRest, arg' :: args', k'')

/-- The synthesized nonterminal for one combination step: up to `h` of
the most recently combined sibling labels, the vertical context when
`v > 0`, and the topmost-in-chain marker. -/
def synthFunc (opts : MarkovOpts) (vert : String) (hist : List String)
    (top : Bool) : Func :=
  .synth (hist.take opts.h) (if opts.v > 0 then vert else "") top

/-- The combination loop for a rule of arity above 2: repeatedly combine
the first two elements of the working sequence into a synthesized
nonterminal, emitting one binary rule per step with the original count
and vertical context; the final two (or one) elements combine into the
rule whose LHS is the original function. -/
def chainRules (opts : MarkovOpts) (F : Func) (vert : String) (cnt : Nat) :
    Lin → List String → Nat → List Func → List GRule
  | _, _, _, [] => []
  | lin, _, _, [a] => [⟨F, lin, [a], vert, cnt⟩]
  | lin, _, _, [a, b] => [⟨F, lin, [a, b], vert, cnt⟩]
  | lin, hist, depth, a :: b :: c :: rest =>
    match stepLin lin 0 with
    | (synLin, newLin, _) =>
      let hist' := funcName b :: funcName a :: hist
      let sf := synthFunc opts vert hist' (depth == 0)
      ⟨sf, synLin, [a, b], vert, cnt⟩ ::
        chainRules opts F vert cnt newLin hist' (depth + 1) (sf :: c :: rest)
termination_by _ _ _ l => l.length

/-- Binarize one rule: arity at most 2 is copied unchanged; otherwise the
combination chain runs over the reordered right-hand side. -/
def binarizeRule (opts : MarkovOpts) (reorder : List Func → List Func)
    (r : GRule) : List GRule :=
  if r.rhs.length ≤ 2 then [r]
  else chainRules opts r.lhs r.vert r.count r.lin [] 0 (reorder r.rhs)

/-- `binarize`: binarize every rule of the grammar; the descendants of an
input rule are exactly its `binarizeRule` image. -/
def binarize (opts : MarkovOpts) (reorder : List Func → List Func)
    (g : List GRule) : List GRule :=
  g.flatMap (binarizeRule opts reorder)

/-- The `left_to_right` reordering strategy: identity order. -/
def reordering_left_to_right : List Func → List Func := id

/-- Total count of a list of rules. -/
def countSum (l : List GRule) : Nat := (l.map GRule.count).sum

/-- A concrete arity-4 rule for the C5 witness. -/
def ruleW : GRule :=
  ⟨.orig "S", [[(0, 0), (1, 0)], [(2, 0), (3, 0)]],
    [.orig "A", .orig "B", .orig "C", .orig "D"], "VROOT", 3⟩

/-! ### Theorems -/

/-- Structural induction over `Tree` providing the hypothesis for every
child of a node. -/
theorem Tree.inductionOn {motive : Tree → Prop}
    (ind : ∀ i d cs, (∀ c, c ∈ cs → motive c) → motive (Tree.node i d cs)) :
    ∀ t, motive t
  | .node i d cs => ind i d cs (fun c hc => Tree.inductionOn ind c)
termination_by t => sizeOf t
decreasing_by
  simp only [Tree.node.sizeOf_spec]
  have := List.sizeOf_lt_of_mem hc
  omega

/-! ### A stable sort keyed by natural numbers

Python's `sorted(l, key=k)` is a stable sort ordered by the key values.
`isortBy` is a stable insertion sort with the same input/output behaviour:
it is a permutation, it is sorted by the key, and elements with equal keys
keep their relative order (expressed below through `filter`). -/

theorem mem_insBy {k : α → Nat} {a x : α} {l : List α} :
    x ∈ insBy k a l ↔ x = a ∨ x ∈ l := by
  rw [(insBy_perm k a l).mem_iff]
  simp

theorem pairwise_insBy (k : α → Nat) (a : α) {l : List α}
    (h : l.Pairwise (fun x y => k x ≤ k y)) :
    (insBy k a l).Pairwise (fun x y => k x ≤ k y) := by
  induction l with
  | nil => simp [insBy]
  | cons b l ih =>
    rcases List.pairwise_cons.mp h with ⟨hb, hl⟩
    by_cases hab : k a ≤ k b
    · simp only [insBy, if_pos hab]
      refine List.pairwise_cons.mpr ⟨?_, h⟩
      intro x hx
      rcases List.mem_cons.mp hx with rfl | hx
      · exact hab
      · exact le_trans hab (hb x hx)
    · simp only [insBy, if_neg hab]
      refine List.pairwise_cons.mpr ⟨?_, ih hl⟩
      intro x hx
      rcases mem_insBy.mp hx with rfl | hx
      · omega
      · exact hb x hx

theorem pairwise_isortBy (k : α → Nat) (l : List α) :
    (isortBy k l).Pairwise (fun x y => k x ≤ k y) := by
  induction l with
  | nil => simp [isortBy]
  | cons a l ih => exact pairwise_insBy k a ih

theorem filter_insBy (k : α → Nat) (a : α) (l : List α) (n : Nat) :
    (insBy k a l).filter (fun x => k x == n) =
      if k a = n then a :: l.filter (fun x => k x == n)
      else l.filter (fun x => k x == n) := by
  induction l with
  | nil =>
    by_cases h : k a = n <;> simp [insBy, h]
  | cons b l ih =>
    by_cases hab : k a ≤ k b
    · simp only [insBy, if_pos hab]
      by_cases h : k a = n <;> simp [h]
    · simp only [insBy, if_neg hab]
      by_cases h : k a = n
      · have hbn : ¬ (k b = n) := by omega
        simp [h, hbn, ih]
      · by_cases hbn : k b = n <;> simp [h, hbn, ih]

theorem filter_isortBy (k : α → Nat) (l : List α) (n : Nat) :
    (isortBy k l).filter (fun x => k x == n) = l.filter (fun x => k x == n) := by
  induction l with
  | nil => rfl
  | cons a l ih =>
    simp only [isortBy, filter_insBy, ih]
    by_cases h : k a = n <;> simp [h]

/-- Two lists sorted by the same key and with identical per-key `filter`s
are equal: a stable sort's output is uniquely determined. -/
theorem eq_of_sorted_filters {k : α → Nat} :
    ∀ {l₁ l₂ : List α}, l₁.Pairwise (fun x y => k x ≤ k y) →
      l₂.Pairwise (fun x y => k x ≤ k y) →
      (∀ n, l₁.filter (fun x => k x == n) = l₂.filter (fun x => k x == n)) →
      l₁ = l₂
  | [], l₂, _, h₂, hf => by
    match l₂ with
    | [] => rfl
    | b :: l₂ =>
      have := hf (k b)
      simp at this
  | a :: l₁, l₂, h₁, h₂, hf => by
    match l₂ with
    | [] =>
      have := hf (k a)
      simp at this
    | b :: l₂ =>
      rcases List.pairwise_cons.mp h₁ with ⟨ha, hl₁⟩
      rcases List.pairwise_cons.mp h₂ with ⟨hb, hl₂⟩
      have hkey : k a = k b := by
        by_cases hne : k a = k b
        · exact hne
        · exfalso
          have hne' : ¬ (k b = k a) := fun h => hne h.symm
          have h₁' := hf (k a)
          have h₂' := hf (k b)
          simp [hne, hne'] at h₁' h₂'
          -- from `h₁'` the element `a` also occurs in `l₂`, so `k b ≤ k a`
          have hmem₁ : a ∈ l₂.filter (fun x => k x == k a) := by
            rw [← h₁']
            exact List.mem_cons_self a _
          -- from `h₂'` the element `b` also occurs in `l₁`, so `k a ≤ k b`
          have hmem₂ : b ∈ l₁.filter (fun x => k x == k b) := by
            rw [h₂']
            exact List.mem_cons_self b _
          have h1 := hb a (List.mem_filter.mp hmem₁).1
          have h2 := ha b (List.mem_filter.mp hmem₂).1
          omega
      have hfa := hf (k a)
      have hba : k b = k a := hkey.symm
      simp [hba] at hfa
      rcases hfa with ⟨rfl, htail⟩
      have htails : ∀ n, l₁.filter (fun x => k x == n) = l₂.filter (fun x => k x == n) := by
        intro n
        by_cases hn : n = k a
        · subst hn
          exact htail
        · have := hf n
          have hna : ¬ (k a = n) := fun h => hn h.symm
          simpa [hna] using this
      rw [eq_of_sorted_filters hl₁ hl₂ htails]

/-! ### Terminal yields -/

theorem mem_utList {x c : Tree} {cs : List Tree} (hc : c ∈ cs)
    (hx : x ∈ unordered_terminals c) : x ∈ utList cs := by
  induction cs with
  | nil => cases hc
  | cons a cs ih =>
    rcases List.mem_cons.mp hc with rfl | hc
    · simp only [utList, List.mem_append]
      exact Or.inl hx
    · simp only [utList, List.mem_append]
      exact Or.inr (ih hc)

theorem allNum_child {i : Nat} {d : NodeData} {cs : List Tree}
    (h : allNum (.node i d cs)) {c : Tree} (hc : c ∈ cs) : allNum c := by
  intro x hx
  apply h
  match cs, hc with
  | c' :: cs', hc =>
    simp only [unordered_terminals]
    exact mem_utList hc hx

theorem unordered_terminals_ne_nil : ∀ t : Tree, unordered_terminals t ≠ [] := by
  intro t
  induction t using Tree.inductionOn with
  | ind i d cs ih =>
    match cs with
    | [] => simp [unordered_terminals]
    | c :: cs' =>
      simp only [unordered_terminals, utList]
      have := ih c (by simp)
      intro hcon
      rcases List.append_eq_nil.mp hcon with ⟨h1, _⟩
      exact this h1

theorem termList_ok_of_forall {cs : List Tree}
    (h : ∀ c ∈ cs, ∃ l, terminals c = .ok l) :
    ∃ L, termList cs = .ok L := by
  induction cs with
  | nil => exact ⟨[], rfl⟩
  | cons c cs ih =>
    rcases h c (by simp) with ⟨a, ha⟩
    rcases ih (fun x hx => h x (by simp [hx])) with ⟨b, hb⟩
    exact ⟨a ++ b, by simp [termList, ha, hb]⟩

theorem termList_ok_forall {cs : List Tree} {L : List Tree}
    (h : termList cs = .ok L) : ∀ c ∈ cs, ∃ lc, terminals c = .ok lc := by
  induction cs generalizing L with
  | nil =>
    intro c hc
    cases hc
  | cons c cs ih =>
    intro x hx
    cases hc : terminals c with
    | error e => simp [termList, hc] at h
    | ok a =>
      cases hcs : termList cs with
      | error e => simp [termList, hc, hcs] at h
      | ok b =>
        rcases List.mem_cons.mp hx with rfl | hx
        · exact ⟨a, hc⟩
        · exact ih hcs x hx

theorem utList_mem {x : Tree} {cs : List Tree} (hx : x ∈ utList cs) :
    ∃ c ∈ cs, x ∈ unordered_terminals c := by
  induction cs with
  | nil => cases hx
  | cons c cs ih =>
    simp only [utList, List.mem_append] at hx
    rcases hx with hx | hx
    · exact ⟨c, by simp, hx⟩
    · rcases ih hx with ⟨c', hc', hx'⟩
      exact ⟨c', by simp [hc'], hx'⟩

theorem terminals_ok_of_allNum : ∀ t : Tree, allNum t → ∃ l, terminals t = .ok l := by
  intro t
  induction t using Tree.inductionOn with
  | ind i d cs ih =>
    intro hall
    match cs with
    | [] =>
      have hs := hall (Tree.node i d []) (by simp [unordered_terminals])
      simp only [Tree.data] at hs
      match hnum : d.num with
      | some n => exact ⟨[Tree.node i d []], by simp [terminals, hnum]⟩
      | none =>
        rw [hnum] at hs
        simp at hs
    | c :: cs' =>
      have hok : ∃ L, termList (c :: cs') = .ok L :=
        termList_ok_of_forall
          (fun x hx => ih x hx (allNum_child hall hx))
      rcases hok with ⟨L, hL⟩
      exact ⟨isortBy treeKey L, by simp [terminals, hL]⟩

theorem allNum_of_terminals_ok : ∀ t : Tree, ∀ l, terminals t = .ok l → allNum t := by
  intro t
  induction t using Tree.inductionOn with
  | ind i d cs ih =>
    intro l hok
    match cs with
    | [] =>
      match hnum : d.num with
      | none => simp [terminals, hnum] at hok
      | some n =>
        intro x hx
        simp only [unordered_terminals, List.mem_singleton] at hx
        subst hx
        simp [Tree.data, hnum]
    | c :: cs' =>
      cases hL : termList (c :: cs') with
      | error e => simp [terminals, hL] at hok
      | ok L =>
        intro x hx
        simp only [unordered_terminals] at hx
        rcases utList_mem hx with ⟨c', hc', hx'⟩
        rcases termList_ok_forall hL c' hc' with ⟨lc, hlc⟩
        exact ih c' hc' lc hlc x hx'

theorem terminals_ok_iff_allNum (t : Tree) :
    (∃ l, terminals t = .ok l) ↔ allNum t :=
  ⟨fun ⟨l, hl⟩ => allNum_of_terminals_ok t l hl, terminals_ok_of_allNum t⟩

theorem terminals_error_iff (t : Tree) :
    (∃ e, terminals t = .error e) ↔
      ∃ x ∈ unordered_terminals t, (Tree.data x).num = none := by
  constructor
  · rintro ⟨e, he⟩
    by_contra hcon
    push_neg at hcon
    have hall : allNum t := by
      intro x hx
      have hne := hcon x hx
      cases hnum : (Tree.data x).num with
      | none => exact absurd hnum hne
      | some n => simp
    rcases (terminals_ok_iff_allNum t).mpr hall with ⟨l, hl⟩
    rw [hl] at he
    cases he
  · rintro ⟨x, hx, hnone⟩
    cases ht : terminals t with
    | error e => exact ⟨e, rfl⟩
    | ok l =>
      have hs := allNum_of_terminals_ok t l ht x hx
      rw [hnone] at hs
      cases hs

theorem termList_filter {cs : List Tree}
    (ih : ∀ c ∈ cs, ∀ lc, terminals c = .ok lc →
      ∀ n, lc.filter (fun x => treeKey x == n) =
        (unordered_terminals c).filter (fun x => treeKey x == n)) :
    ∀ {L : List Tree}, termList cs = .ok L →
    ∀ n, L.filter (fun x => treeKey x == n) =
      (utList cs).filter (fun x => treeKey x == n) := by
  induction cs with
  | nil =>
    intro L h n
    simp only [termList] at h
    cases h
    rfl
  | cons c cs ihl =>
    intro L h n
    cases hc : terminals c with
    | error e => simp [termList, hc] at h
    | ok a =>
      cases hcs : termList cs with
      | error e => simp [termList, hc, hcs] at h
      | ok b =>
        simp only [termList, hc, hcs] at h
        cases h
        simp only [utList, List.filter_append]
        rw [ih c (by simp) a hc n,
          ihl (fun x hx => ih x (by simp [hx])) hcs n]

theorem terminals_filter : ∀ t : Tree, ∀ l, terminals t = .ok l →
    ∀ n, l.filter (fun x => treeKey x == n) =
      (unordered_terminals t).filter (fun x => treeKey x == n) := by
  intro t
  induction t using Tree.inductionOn with
  | ind i d cs ih =>
    intro l hok n
    match cs with
    | [] =>
      match hnum : d.num with
      | none => simp [terminals, hnum] at hok
      | some m =>
        simp only [terminals, hnum] at hok
        cases hok
        rfl
    | c :: cs' =>
      cases hL : termList (c :: cs') with
      | error e => simp [terminals, hL] at hok
      | ok L =>
        simp only [terminals, hL] at hok
        cases hok
        rw [filter_isortBy]
        simp only [unordered_terminals]
        exact termList_filter ih hL n

theorem terminals_pairwise : ∀ t : Tree, ∀ l, terminals t = .ok l →
    l.Pairwise (fun x y => treeKey x ≤ treeKey y) := by
  intro t l hok
  match t with
  | .node i d [] =>
    match hnum : d.num with
    | none => simp [terminals, hnum] at hok
    | some m =>
      simp only [terminals, hnum] at hok
      cases hok
      simp
  | .node i d (c :: cs') =>
    cases hL : termList (c :: cs') with
    | error e => simp [terminals, hL] at hok
    | ok L =>
      simp only [terminals, hL] at hok
      cases hok
      exact pairwise_isortBy treeKey L

/-- The central stable-sort characterization: a successful `terminals` run
returns exactly the stable sort (by `num`) of `unordered_terminals`. -/
theorem terminals_eq_isort_unordered (t : Tree) (l : List Tree)
    (hok : terminals t = .ok l) :
    l = isortBy treeKey (unordered_terminals t) := by
  apply eq_of_sorted_filters (terminals_pairwise t l hok)
    (pairwise_isortBy treeKey _)
  intro n
  rw [terminals_filter t l hok n, filter_isortBy]

/-! ### Terminal blocks (`trees.terminal_blocks`) -/

theorem mkBlocks_shape (x : Tree) (l : List Tree) :
    ∃ b bs, mkBlocks x l = (x :: b) :: bs := by
  induction l generalizing x with
  | nil => exact ⟨[], [], rfl⟩
  | cons y rest ih =>
    by_cases hgap : treeKey x + 1 < treeKey y
    · exact ⟨[], mkBlocks y rest, by simp [mkBlocks, hgap]⟩
    · rcases ih y with ⟨b, bs, hb⟩
      exact ⟨y :: b, bs, by simp [mkBlocks, hgap, hb]⟩

theorem mkBlocks_flatten (x : Tree) (l : List Tree) :
    (mkBlocks x l).flatten = x :: l := by
  induction l generalizing x with
  | nil => simp [mkBlocks]
  | cons y rest ih =>
    by_cases hgap : treeKey x + 1 < treeKey y
    · simp [mkBlocks, hgap, ih y]
    · rcases mkBlocks_shape y rest with ⟨b, bs, hb⟩
      have hf := ih y
      rw [hb] at hf
      simp only [List.flatten_cons] at hf
      simp only [mkBlocks, if_neg hgap, hb, List.flatten_cons]
      rw [List.cons_append, hf]

theorem mkBlocks_within (x : Tree) (l : List Tree)
    (h : List.Chain' (fun a b => treeKey a < treeKey b) (x :: l)) :
    ∀ b ∈ mkBlocks x l, b.Chain' (fun a c => treeKey c = treeKey a + 1) := by
  induction l generalizing x with
  | nil =>
    intro b hb
    simp only [mkBlocks, List.mem_singleton] at hb
    subst hb
    simp
  | cons y rest ih =>
    rcases List.chain'_cons.mp h with ⟨hxy, hrest⟩
    intro b hb
    by_cases hgap : treeKey x + 1 < treeKey y
    · simp only [mkBlocks, if_pos hgap] at hb
      rcases List.mem_cons.mp hb with rfl | hb
      · simp
      · exact ih y hrest b hb
    · rcases mkBlocks_shape y rest with ⟨b', bs, hb'⟩
      simp only [mkBlocks, if_neg hgap, hb'] at hb
      rcases List.mem_cons.mp hb with rfl | hb
      · have hy : treeKey y = treeKey x + 1 := by omega
        have hyb : (y :: b').Chain' (fun a c => treeKey c = treeKey a + 1) := by
          apply ih y hrest
          rw [hb']
          simp
        exact List.chain'_cons.mpr ⟨hy, hyb⟩
      · apply ih y hrest b
        rw [hb']
        simp [hb]

theorem mkBlocks_gap (x : Tree) (l : List Tree)
    (h : List.Chain' (fun a b => treeKey a < treeKey b) (x :: l)) :
    List.Chain' blockGap (mkBlocks x l) := by
  induction l generalizing x with
  | nil => simp [mkBlocks]
  | cons y rest ih =>
    rcases List.chain'_cons.mp h with ⟨hxy, hrest⟩
    by_cases hgap : treeKey x + 1 < treeKey y
    · rcases mkBlocks_shape y rest with ⟨b', bs, hb'⟩
      simp only [mkBlocks, if_pos hgap, hb']
      refine List.chain'_cons.mpr ⟨?_, ?_⟩
      · simp [blockGap, hgap]
      · rw [← hb']
        exact ih y hrest
    · rcases mkBlocks_shape y rest with ⟨b', bs, hb'⟩
      simp only [mkBlocks, if_neg hgap, hb']
      have hch := ih y hrest
      rw [hb'] at hch
      cases bs with
      | nil => simp
      | cons c bs' =>
        rcases List.chain'_cons.mp hch with ⟨hgap1, hch'⟩
        refine List.chain'_cons.mpr ⟨?_, hch'⟩
        unfold blockGap at hgap1 ⊢
        rw [List.getLast?_cons_cons]
        exact hgap1

/-! ### Concrete trees used by witnesses and counterexamples -/

/-- C4: `terminals(tree)` raises an error if and only if some leaf of the
tree lacks a `num` entry in its data; when every leaf has one, it raises
nothing and returns exactly the leaves of the tree sorted ascending by
position. -/
theorem C4_terminals_error_condition (t : Tree) :
    ((∃ e, terminals t = .error e) ↔
      ∃ x ∈ unordered_terminals t, (Tree.data x).num = none) ∧
    (allNum t → ∃ l, terminals t = .ok l ∧ List.Perm l (unordered_terminals t) ∧
      l.Pairwise (fun x y => treeKey x ≤ treeKey y)) := by
  refine ⟨terminals_error_iff t, fun h => ?_⟩
  rcases terminals_ok_of_allNum t h with ⟨l, hok⟩
  refine ⟨l, hok, ?_, terminals_pairwise t l hok⟩
  rw [terminals_eq_isort_unordered t l hok]
  exact isortBy_perm _ _

/-- Witness for C4 at the concrete tree `treeW`. -/
theorem C4_witness :
    allNum treeW ∧ (∃ l, terminals treeW = .ok l ∧
      List.Perm l (unordered_terminals treeW) ∧
      l.Pairwise (fun x y => treeKey x ≤ treeKey y)) :=
  ⟨by decide, (C4_terminals_error_condition treeW).2 (by decide)⟩

/-- C8: when every leaf carries a position, `terminals` and
`unordered_terminals` return the same multiset of leaves, and `terminals`
is exactly `unordered_terminals` stably sorted ascending by position. -/
theorem C8_terminals_agrees_with_unordered (t : Tree) (h : allNum t) :
    ∃ l, terminals t = .ok l ∧ List.Perm l (unordered_terminals t) ∧
      l = isortBy treeKey (unordered_terminals t) := by
  rcases terminals_ok_of_allNum t h with ⟨l, hok⟩
  have heq := terminals_eq_isort_unordered t l hok
  refine ⟨l, hok, ?_, heq⟩
  rw [heq]
  exact isortBy_perm _ _

/-- Witness for C8 at the concrete tree `treeW`. -/
theorem C8_witness :
    allNum treeW ∧ (∃ l, terminals treeW = .ok l ∧
      List.Perm l (unordered_terminals treeW) ∧
      l = isortBy treeKey (unordered_terminals treeW)) :=
  ⟨by decide, C8_terminals_agrees_with_unordered treeW (by decide)⟩

/-- C3 fails as stated: on `treeD`, whose two leaves both carry position
0 (every leaf does carry a position, which is all the claim assumes),
`terminal_blocks` puts both leaves in one block whose consecutive
positions differ by 0, not exactly 1. -/
theorem C3_counterexample : allNum treeD ∧ ¬ blocksSpecAt treeD := by
  refine ⟨by decide, ?_⟩
  rintro ⟨bs, ts, hbs, hts, hflat, hwithin, hgap⟩
  have hval : terminal_blocks treeD = .ok [[leafD0, leafD1]] := rfl
  rw [hval] at hbs
  cases hbs
  have hc := hwithin [leafD0, leafD1] (by simp)
  rw [List.chain'_cons] at hc
  have : treeKey leafD1 = treeKey leafD0 + 1 := hc.1
  simp [treeKey, leafD0, leafD1, Tree.data] at this

/-- C3 amended: if additionally the leaf positions are pairwise distinct
(which the `Tree` docstring demands of well-formed trees), the claimed
segmentation property holds: blocks concatenate to the sorted yield,
positions step by exactly 1 inside a block, and gaps between blocks
exceed 1. -/
theorem C3_terminal_blocks_segmentation (t : Tree) (h1 : allNum t)
    (h2 : ((unordered_terminals t).map treeKey).Nodup) : blocksSpecAt t := by
  rcases terminals_ok_of_allNum t h1 with ⟨l, hok⟩
  have hsorted := terminals_pairwise t l hok
  have hperm : List.Perm l (unordered_terminals t) := by
    rw [terminals_eq_isort_unordered t l hok]
    exact isortBy_perm _ _
  have hnodup : (l.map treeKey).Nodup := ((hperm.map treeKey).nodup_iff).mpr h2
  have hne : l.Pairwise (fun a b => treeKey a ≠ treeKey b) :=
    List.pairwise_map.mp hnodup
  have hlt : l.Pairwise (fun a b => treeKey a < treeKey b) :=
    (hsorted.and hne).imp (fun h => lt_of_le_of_ne h.1 h.2)
  have hchain : l.Chain' (fun a b => treeKey a < treeKey b) := hlt.chain'
  match l, hok, hchain with
  | [], hok, _ =>
    exfalso
    exact unordered_terminals_ne_nil t (List.Perm.eq_nil hperm.symm)
  | x :: rest, hok, hchain =>
    refine ⟨mkBlocks x rest, x :: rest, ?_, hok, mkBlocks_flatten x rest,
      mkBlocks_within x rest hchain, mkBlocks_gap x rest hchain⟩
    simp [terminal_blocks, hok]

/-- Witness for the amended C3 at the concrete tree `treeW` (blocks
`[[pos 0, pos 1], [pos 3]]`). -/
theorem C3_witness :
    allNum treeW ∧ ((unordered_terminals treeW).map treeKey).Nodup ∧
      blocksSpecAt treeW :=
  ⟨by decide, by decide, C3_terminal_blocks_segmentation treeW (by decide) (by decide)⟩

/-! ### Ordered children (`trees.children`) -/

theorem childKeyE_of_allNum {c : Tree} (h : allNum c) :
    childKeyE c = .ok (leftKey c) := by
  rcases terminals_ok_of_allNum c h with ⟨l, hok⟩
  have heq := terminals_eq_isort_unordered c l hok
  have hperm : List.Perm l (unordered_terminals c) := by
    rw [heq]
    exact isortBy_perm _ _
  match l, hok, heq with
  | [], hok, heq =>
    exact absurd (List.Perm.eq_nil hperm.symm) (unordered_terminals_ne_nil c)
  | x :: rest, hok, heq =>
    have hx : x ∈ unordered_terminals c := hperm.subset (by simp)
    have hnum := h x hx
    cases hnumx : (Tree.data x).num with
    | none =>
      rw [hnumx] at hnum
      cases hnum
    | some n =>
      simp only [childKeyE, hok, hnumx]
      have : leftKey c = treeKey x := by
        rw [leftKey, ← heq, headKey]
      rw [this, treeKey, hnumx]
      rfl

theorem childKeys_of_allNum {cs : List Tree} (h : ∀ c ∈ cs, allNum c) :
    childKeys cs = .ok (cs.map (fun c => (leftKey c, c))) := by
  induction cs with
  | nil => rfl
  | cons c cs ih =>
    simp only [childKeys, childKeyE_of_allNum (h c (by simp)),
      ih (fun x hx => h x (by simp [hx])), List.map_cons]

theorem children_eq_childrenT {t : Tree} (h : allNum t) :
    children t = .ok (childrenT t) := by
  have hch : ∀ c ∈ Tree.children t, allNum c := by
    intro c hc
    match t, hc with
    | .node i d cs, hc => exact allNum_child h hc
  simp only [children, childKeys_of_allNum hch, childrenT]

theorem childrenT_pairwise (t : Tree) :
    (childrenT t).Pairwise (fun a b => leftKey a ≤ leftKey b) := by
  have hpw := pairwise_isortBy Prod.fst ((Tree.children t).map (fun c => (leftKey c, c)))
  have hmem : ∀ p ∈ isortBy Prod.fst ((Tree.children t).map (fun c => (leftKey c, c))),
      p.1 = leftKey p.2 := by
    intro p hp
    have : p ∈ (Tree.children t).map (fun c => (leftKey c, c)) :=
      (isortBy_perm _ _).subset hp
    simp only [List.mem_map] at this
    rcases this with ⟨c, _, rfl⟩
    rfl
  rw [childrenT, List.pairwise_map]
  refine hpw.imp_of_mem ?_
  intro a b ha hb hab
  rw [hmem a ha, hmem b hb] at hab
  exact hab

/-- C6: on a node all of whose descendant leaves carry a position,
`children(tree)` raises nothing and returns exactly the node's children
(the same multiset as `tree.children`), ordered ascending by the position
of each child's leftmost terminal. -/
theorem C6_children_ordered (t : Tree) (h : allNum t) :
    ∃ l, children t = .ok l ∧ List.Perm l (Tree.children t) ∧
      l.Pairwise (fun a b => leftKey a ≤ leftKey b) :=
  ⟨childrenT t, children_eq_childrenT h, childrenT_perm t, childrenT_pairwise t⟩

/-- Witness for C6 at the concrete tree `treeW` (children listed out of
order, re-ordered to positions 0, 1, 3). -/
theorem C6_witness :
    allNum treeW ∧ (∃ l, children treeW = .ok l ∧
      List.Perm l (Tree.children treeW) ∧
      l.Pairwise (fun a b => leftKey a ≤ leftKey b)) :=
  ⟨by decide, C6_children_ordered treeW (by decide)⟩

theorem preorderT_eq (t : Tree) :
    preorderT t = t :: (childrenT t).flatMap preorderT := by
  rw [preorderT, List.flatMap_def]
  simp

theorem postorderT_eq (t : Tree) :
    postorderT t = (childrenT t).flatMap postorderT ++ [t] := by
  rw [postorderT, List.flatMap_def]
  simp

theorem mapM_subtype_ok {P : Tree → Prop} {f : Tree → Except String (List Tree)}
    {g : Tree → List Tree} :
    ∀ (l : List {x : Tree // P x}), (∀ c ∈ l, f c.1 = .ok (g c.1)) →
      l.mapM (fun x => f x.1) = .ok (l.map (fun x => g x.1)) := by
  intro l
  induction l with
  | nil => intro h; rfl
  | cons c cs ih =>
    intro h
    rw [List.mapM_cons, h c (by simp), ih (fun x hx => h x (by simp [hx]))]
    rfl

theorem preorder_eq_preorderT : ∀ t : Tree, allNum t →
    preorder t = .ok (preorderT t) := by
  intro t
  induction t using Tree.inductionOn with
  | ind i d cs ih =>
    intro hall
    have hch := children_eq_childrenT hall
    unfold preorder
    split
    · rename_i e heq
      rw [hch] at heq
      cases heq
    · rename_i cs' heq
      rw [hch] at heq
      injection heq with hcs
      subst hcs
      have hmap : (childrenT (Tree.node i d cs)).attach.mapM (fun x => preorder x.1) =
          .ok ((childrenT (Tree.node i d cs)).attach.map (fun x => preorderT x.1)) := by
        apply mapM_subtype_ok
        intro c _
        have hmem : c.1 ∈ cs := by
          have := mem_childrenT c.2
          simpa [Tree.children] using this
        exact ih c.1 hmem (allNum_child hall hmem)
      rw [hmap]
      rw [preorderT]

theorem postorder_eq_postorderT : ∀ t : Tree, allNum t →
    postorder t = .ok (postorderT t) := by
  intro t
  induction t using Tree.inductionOn with
  | ind i d cs ih =>
    intro hall
    have hch := children_eq_childrenT hall
    unfold postorder
    split
    · rename_i e heq
      rw [hch] at heq
      cases heq
    · rename_i cs' heq
      rw [hch] at heq
      injection heq with hcs
      subst hcs
      have hmap : (childrenT (Tree.node i d cs)).attach.mapM (fun x => postorder x.1) =
          .ok ((childrenT (Tree.node i d cs)).attach.map (fun x => postorderT x.1)) := by
        apply mapM_subtype_ok
        intro c _
        have hmem : c.1 ∈ cs := by
          have := mem_childrenT c.2
          simpa [Tree.children] using this
        exact ih c.1 hmem (allNum_child hall hmem)
      rw [hmap]
      rw [postorderT]

theorem nodesList_eq (cs : List Tree) : nodesList cs = cs.flatMap nodes := by
  induction cs with
  | nil => rfl
  | cons c cs ih => simp [nodesList, ih]

theorem preorderT_perm_nodes : ∀ t : Tree, List.Perm (preorderT t) (nodes t) := by
  intro t
  induction t using Tree.inductionOn with
  | ind i d cs ih =>
    rw [preorderT_eq]
    simp only [nodes]
    refine List.Perm.cons _ ?_
    have h1 : List.Perm ((childrenT (Tree.node i d cs)).flatMap preorderT)
        ((childrenT (Tree.node i d cs)).flatMap nodes) := by
      apply List.Perm.flatMap_left
      intro a ha
      exact ih a (by simpa [Tree.children] using mem_childrenT ha)
    have h2 : List.Perm ((childrenT (Tree.node i d cs)).flatMap nodes)
        (cs.flatMap nodes) := by
      apply List.Perm.flatMap_right
      simpa [Tree.children] using childrenT_perm (Tree.node i d cs)
    rw [nodesList_eq]
    exact h1.trans h2

theorem postorderT_perm_nodes : ∀ t : Tree, List.Perm (postorderT t) (nodes t) := by
  intro t
  induction t using Tree.inductionOn with
  | ind i d cs ih =>
    rw [postorderT_eq]
    simp only [nodes]
    have h1 : List.Perm ((childrenT (Tree.node i d cs)).flatMap postorderT)
        ((childrenT (Tree.node i d cs)).flatMap nodes) := by
      apply List.Perm.flatMap_left
      intro a ha
      exact ih a (by simpa [Tree.children] using mem_childrenT ha)
    have h2 : List.Perm ((childrenT (Tree.node i d cs)).flatMap nodes)
        (cs.flatMap nodes) := by
      apply List.Perm.flatMap_right
      simpa [Tree.children] using childrenT_perm (Tree.node i d cs)
    have h3 := (h1.trans h2).append (List.Perm.refl [Tree.node i d cs])
    refine h3.trans ?_
    rw [nodesList_eq]
    exact (List.perm_append_comm).trans (List.Perm.refl _)

theorem flatMap_infix_of_mem {l : List α} {f : α → List β} {x : α} (hx : x ∈ l) :
    ∃ p s, p ++ f x ++ s = l.flatMap f := by
  induction l with
  | nil => cases hx
  | cons y l ih =>
    rcases List.mem_cons.mp hx with rfl | hx
    · exact ⟨[], l.flatMap f, by simp⟩
    · rcases ih hx with ⟨p, s, hps⟩
      refine ⟨f y ++ p, s, ?_⟩
      rw [List.flatMap_cons, ← hps]
      simp

theorem preorderT_infix_of_subtree {u t : Tree} (h : Subtree u t) :
    ∃ p s, p ++ preorderT u ++ s = preorderT t := by
  induction h with
  | refl => exact ⟨[], [], by simp⟩
  | @step c i d cs hc hsub ih =>
    rcases ih with ⟨p, s, hps⟩
    have hcT : c ∈ childrenT (Tree.node i d cs) :=
      (childrenT_perm (Tree.node i d cs)).symm.subset
        (by simpa [Tree.children] using hc)
    rcases flatMap_infix_of_mem (f := preorderT) hcT with ⟨p2, s2, hp2⟩
    refine ⟨Tree.node i d cs :: (p2 ++ p), s ++ s2, ?_⟩
    rw [preorderT_eq (Tree.node i d cs), ← hp2, ← hps]
    simp

theorem postorderT_infix_of_subtree {u t : Tree} (h : Subtree u t) :
    ∃ p s, p ++ postorderT u ++ s = postorderT t := by
  induction h with
  | refl => exact ⟨[], [], by simp⟩
  | @step c i d cs hc hsub ih =>
    rcases ih with ⟨p, s, hps⟩
    have hcT : c ∈ childrenT (Tree.node i d cs) :=
      (childrenT_perm (Tree.node i d cs)).symm.subset
        (by simpa [Tree.children] using hc)
    rcases flatMap_infix_of_mem (f := postorderT) hcT with ⟨p2, s2, hp2⟩
    refine ⟨p2 ++ p, s ++ (s2 ++ [Tree.node i d cs]), ?_⟩
    rw [postorderT_eq (Tree.node i d cs), ← hp2, ← hps]
    simp

/-- C9: on a finite tree with no repeated node and all leaves positioned,
`preorder` and `postorder` yield every node exactly once, the root before
(after) all of its descendants, visiting children in `children` order. -/
theorem C9_traversal_completeness (t : Tree) (h1 : allNum t)
    (h2 : (nodes t).Nodup) : traversalSpec t := by
  refine ⟨preorder_eq_preorderT t h1, postorder_eq_postorderT t h1,
    preorderT_perm_nodes t, postorderT_perm_nodes t,
    ((preorderT_perm_nodes t).nodup_iff).mpr h2,
    ((postorderT_perm_nodes t).nodup_iff).mpr h2, ?_⟩
  intro u hu
  refine ⟨?_, ?_, preorderT_infix_of_subtree hu, postorderT_infix_of_subtree hu,
    preorderT_eq u, postorderT_eq u⟩
  · rw [preorderT_eq]
    rfl
  · rw [postorderT_eq]
    exact List.getLast?_concat _

/-- Witness for C9 at the concrete tree `treeW`. -/
theorem C9_witness : allNum treeW ∧ (nodes treeW).Nodup ∧ traversalSpec treeW :=
  ⟨by decide, by decide, C9_traversal_completeness treeW (by decide) (by decide)⟩

/-! ### Label parsing (`trees.parse_label`, `trees.format_label`) -/

theorem lastIdxOf_eq_none {c : Char} {cs : List Char} (h : c ∉ cs) :
    lastIdxOf c cs = none := by
  induction cs with
  | nil => rfl
  | cons x xs ih =>
    rw [List.mem_cons, not_or] at h
    have hx : (x == c) = false := by
      rw [beq_eq_false_iff_ne]
      exact fun he => h.1 he.symm
    simp [lastIdxOf, ih h.2, hx]

theorem firstIdxOf_eq_none {c : Char} {cs : List Char} (h : c ∉ cs) :
    firstIdxOf c cs = none := by
  induction cs with
  | nil => rfl
  | cons x xs ih =>
    rw [List.mem_cons, not_or] at h
    have hx : (x == c) = false := by
      rw [beq_eq_false_iff_ne]
      exact fun he => h.1 he.symm
    simp [firstIdxOf, ih h.2, hx]

/-- C1 (code bug): `format_label` is not an inverse of `parse_label`'s
decomposition; already on the plain well-formed label `"NP"` (which
`parse_label` decomposes fine) composing back raises a `NameError`,
because `format_label` reads the unbound names `gapindex`/`coindex`. -/
theorem C1_roundtrip_raises :
    parse_label "NP" = .ok ⟨"NP", "--", "-", "", "", "", false⟩ ∧
    (parse_label "NP").bind format_label =
      .error "NameError: name gapindex is not defined" := by
  constructor
  · decide
  · decide

/-- C2 (code bug): on `"NP=1"` (non-empty base, `=` plus digits, no head
marker) `parse_label` does not return gapindex `"1"`: it reaches the
gap-index branch and raises a `NameError` at the unbound
`gapindex_sep_pos`. -/
theorem C2_gapindex_parse_raises :
    parse_label "NP=1" =
      .error "NameError: name gapindex_sep_pos is not defined" := by
  decide

/-- C7: on a non-empty label containing neither separator (`-`, `=`) and
not ending in the head marker, `parse_label` raises nothing and returns
the label unchanged, the default edge `"--"` as grammatical function, and
empty coindex, gapindex and head marker. -/
theorem C7_parse_label_total_on_plain (s : String)
    (hne : s.data ≠ [])
    (hco : DEFAULT_COINDEX_SEPARATOR ∉ s.data)
    (hgap : DEFAULT_GAPPING_SEPARATOR ∉ s.data)
    (hmark : s.data.getLast? ≠ some DEFAULT_HEAD_MARKER) :
    ∃ p, parse_label s = .ok p ∧ p.label = s ∧ p.gf = DEFAULT_EDGE ∧
      p.coindex = "" ∧ p.gapindex = "" ∧ p.headmarker = "" := by
  have hmarkb : (s.data.getLast? == some DEFAULT_HEAD_MARKER) = false := by
    rw [beq_eq_false_iff_ne]
    exact hmark
  have hneb : s.data.isEmpty = false := by
    rw [List.isEmpty_eq_false]
    exact hne
  have hgf : DEFAULT_GF_SEPARATOR ∉ s.data := hco
  refine ⟨⟨s, DEFAULT_EDGE, String.mk [DEFAULT_GF_SEPARATOR], "", "", "",
    s.data.head? == some '*' && s.data.getLast? == some '*'⟩, ?_, rfl, rfl, rfl, rfl, rfl⟩
  rw [parse_label]
  simp only [hneb, Bool.false_eq_true, if_false, hmarkb, if_false,
    lastIdxOf_eq_none hco, lastIdxOf_eq_none hgap]
  rw [finishLabel]
  simp only [hneb, Bool.false_eq_true, if_false, firstIdxOf_eq_none hgf]

/-- Witness for C7 at the concrete label `"NP"`. -/
theorem C7_witness :
    "NP".data ≠ [] ∧ DEFAULT_COINDEX_SEPARATOR ∉ "NP".data ∧
    DEFAULT_GAPPING_SEPARATOR ∉ "NP".data ∧
    "NP".data.getLast? ≠ some DEFAULT_HEAD_MARKER ∧
    (∃ p, parse_label "NP" = .ok p ∧ p.label = "NP" ∧ p.gf = DEFAULT_EDGE ∧
      p.coindex = "" ∧ p.gapindex = "" ∧ p.headmarker = "") :=
  ⟨by decide, by decide, by decide, by decide,
    C7_parse_label_total_on_plain "NP" (by decide) (by decide) (by decide) (by decide)⟩

/-! ### Tree construction and identity (`Tree.__init__`, `Tree.__eq__`) -/

theorem initMany_ids (s : Store) : ∀ (as : List Nat) (c : Nat),
    (initMany s as c).1.map Tree.id = List.range' c as.length ∧
    (initMany s as c).2 = c + as.length := by
  intro as
  induction as with
  | nil => intro c; simp [initMany]
  | cons a as ih =>
    intro c
    rcases ih (c + 1) with ⟨h1, h2⟩
    simp only [initMany, Tree.init, List.map_cons, Tree.id, List.length_cons]
    rw [List.range'_succ]
    refine ⟨?_, ?_⟩
    · rw [h1]
    · rw [h2]
      omega

/-- C10: `Tree(data)` copies the dict — reading the tree's data after any
later store mutation still yields the dict's value at construction time;
each construction takes the next id from the counter, so any construction
sequence yields pairwise distinct ids; and `__eq__` compares ids for
trees and returns `False` (never raising) on every non-`Tree` value. -/
theorem C10_construction_isolated_and_identified (s : Store) (addr counter : Nat) :
    (∀ s' : Store, Tree.readData (Tree.init s addr counter).1 s' = storeGet s addr) ∧
    (∀ a' d', Tree.readData (Tree.init s addr counter).1 (storeSet s a' d') =
      Tree.readData (Tree.init s addr counter).1 s) ∧
    Tree.id (Tree.init s addr counter).1 = counter ∧
    (Tree.init s addr counter).2 = counter + 1 ∧
    Tree.children (Tree.init s addr counter).1 = [] ∧
    (∀ (as : List Nat) (c : Nat),
      (initMany s as c).1.map Tree.id = List.range' c as.length ∧
      ((initMany s as c).1.map Tree.id).Nodup) ∧
    (∀ t o : Tree, (treeEq t (.tree o) = true ↔ Tree.id t = Tree.id o)) ∧
    (∀ t : Tree, ∀ str : String, treeEq t (.str str) = false) ∧
    (∀ t : Tree, ∀ n : Int, treeEq t (.int n) = false) ∧
    (∀ t : Tree, treeEq t .none = false) := by
  refine ⟨fun s' => rfl, fun a' d' => rfl, rfl, rfl, rfl, ?_, ?_, fun t str => rfl,
    fun t n => rfl, fun t => rfl⟩
  · intro as c
    refine ⟨(initMany_ids s as c).1, ?_⟩
    rw [(initMany_ids s as c).1]
    exact List.nodup_range' c as.length
  · intro t o
    simp [treeEq]

/-- Witness for C10 at a concrete store, address and counter. -/
theorem C10_witness :
    Tree.id (Tree.init [{ label := some "S" }] 0 5).1 = 5 ∧
    (∀ d', Tree.readData (Tree.init [{ label := some "S" }] 0 5).1
      (storeSet [{ label := some "S" }] 0 d') = storeGet [{ label := some "S" }] 0) ∧
    ((initMany [{ label := some "S" }] [0, 0, 0] 5).1.map Tree.id).Nodup :=
  ⟨(C10_construction_isolated_and_identified [{ label := some "S" }] 0 5).2.2.1,
   fun d' => ((C10_construction_isolated_and_identified [{ label := some "S" }] 0 5).2.1 0 d'),
   ((C10_construction_isolated_and_identified [{ label := some "S" }] 0 5).2.2.2.2.2.1 [0, 0, 0] 5).2⟩

/-! ### The grammar binarizer (claim C5)

Modelled from the spec: the grammar module itself (`binarize` with its
markovization and reordering, spec section 4.2/4.3) is not among the
sources at hand — only its tests are — so the binarizer is modelled from
the design document's words: rules of arity at most 2 are copied
unchanged; for higher arity the (reordered) right-hand side is combined
pairwise left to right into synthesized markov nonterminals, each emitted
binary rule carrying the original count and vertical context, and the
final combination step carrying the original function as LHS. -/

theorem chainRules_count (opts : MarkovOpts) {F : Func} {n : String}
    (hF : F = .orig n) (vert : String) (cnt : Nat) :
    ∀ (lin : Lin) (hist : List String) (depth : Nat) (l : List Func),
      l ≠ [] →
      countSum ((chainRules opts F vert cnt lin hist depth l).filter
        (fun d => d.lhs == F && d.vert == vert)) = cnt
  | lin, hist, depth, [], h => absurd rfl h
  | lin, hist, depth, [a], _ => by
    simp [chainRules, countSum]
  | lin, hist, depth, [a, b], _ => by
    simp [chainRules, countSum]
  | lin, hist, depth, a :: b :: c :: rest, _ => by
    subst hF
    rw [chainRules]
    cases hsl : stepLin lin 0 with
    | mk synLin p =>
      cases p with
      | mk newLin k =>
        have hne : (synthFunc opts vert
            (funcName b :: funcName a :: hist) (depth == 0) ==
            Func.orig n) = false := by
          simp [synthFunc]
        simp only [List.filter_cons, hne, Bool.false_and, Bool.false_eq_true,
          if_false]
        exact chainRules_count opts rfl vert cnt newLin
          (funcName b :: funcName a :: hist) (depth + 1)
          (synthFunc opts vert (funcName b :: funcName a :: hist) (depth == 0)
            :: c :: rest) (by simp)
termination_by _ _ _ l => l.length

/-- C5 (modelled from the spec): for any input rule of the grammar passed
to `binarize`, for any markovization bounds and any reordering strategy
(any permutation of the right-hand side), the counts of the binarized
rules descending from it that carry the originating function and vertical
context sum to the original rule's count. -/
theorem C5_binarize_count_conservation (opts : MarkovOpts)
    (reorder : List Func → List Func) (g : List GRule) (r : GRule)
    (hr : r ∈ g) (horig : ∃ n, r.lhs = .orig n)
    (hperm : List.Perm (reorder r.rhs) r.rhs) :
    binarize opts reorder g = g.flatMap (binarizeRule opts reorder) ∧
    countSum ((binarizeRule opts reorder r).filter
      (fun d => d.lhs == r.lhs && d.vert == r.vert)) = r.count := by
  refine ⟨rfl, ?_⟩
  rcases horig with ⟨n, hn⟩
  rw [binarizeRule]
  by_cases hlen : r.rhs.length ≤ 2
  · rw [if_pos hlen]
    simp [countSum]
  · rw [if_neg hlen]
    apply chainRules_count opts hn
    intro hcon
    have hlen2 := hperm.length_eq
    rw [hcon] at hlen2
    simp at hlen2
    omega

/-- Witness for C5 at `ruleW` with the `left_to_right` strategy and
markov bounds `v = 1`, `h = 2`. -/
theorem C5_witness :
    ruleW ∈ [ruleW] ∧ (∃ n, ruleW.lhs = .orig n) ∧
    List.Perm (reordering_left_to_right ruleW.rhs) ruleW.rhs ∧
    (binarize ⟨1, 2⟩ reordering_left_to_right [ruleW] =
      [ruleW].flatMap (binarizeRule ⟨1, 2⟩ reordering_left_to_right) ∧
    countSum ((binarizeRule ⟨1, 2⟩ reordering_left_to_right ruleW).filter
      (fun d => d.lhs == ruleW.lhs && d.vert == ruleW.vert)) = ruleW.count) :=
  ⟨by simp, ⟨"S", rfl⟩, List.Perm.refl _,
    C5_binarize_count_conservation ⟨1, 2⟩ reordering_left_to_right [ruleW]
      ruleW (by simp) ⟨"S", rfl⟩ (List.Perm.refl _)⟩

end TT
